import Mathlib

/-!
Verification of the file-enumeration core of `hogeutilrs` (`src/files.rs`).

`Cli::files_inner` walks a directory tree, pruning any directory whose base
name matches the ignore pattern, emitting non-directory children (when
directories-only mode is off) or directory children (when it is on) onto an
mpsc channel, and recursing into directory children either in the current
thread (sync) or in a freshly spawned thread (async).  `Cli::files` spawns
the root traversal on a worker thread and hands the receiver to `Cli::run`,
which filters by the match pattern, truncates at `max_items` and prints each
surviving entry absolutely or relative to the root.

Embedding conventions:
- a filesystem path is its list of components (`List String`);
- a regex is abstracted to its matching function `Pat := String → Bool`;
- the scanned tree is a mutual inductive (`FsTree`/`FsListing`/`FsForest`);
  a `FsListing.fail` listing is a directory on which `fs::read_dir` fails;
- a Rust panic (`Option::unwrap` on `None` inside `is_match`) is modelled by
  the traversal returning `none`;
- the `Result<(), FilesError>` a traversal call returns is the
  `Except Unit Unit` component of its result; the entries it sent on the
  channel are the `List Entry` component, async subtree emissions placed at
  their spawn point (one representative of the nondeterministic arrival
  order, adequate for all set-of-entries properties).
-/

/-- A compiled regular expression, abstracted to its matching function. -/
abbrev Pat := String → Bool

mutual

/-- A node of the scanned directory tree. -/
inductive FsTree where
  | file (name : String)
  | dir (name : String) (listing : FsListing)

/-- What `fs::read_dir` returns on a directory: an error, or its children. -/
inductive FsListing where
  | fail
  | ok (children : FsForest)

/-- The children of a directory, in the order `read_dir` yields them. -/
inductive FsForest where
  | nil
  | cons (c : FsTree) (rest : FsForest)

end

/-- Base name of a tree node. -/
def FsTree.name : FsTree → String
  | .file n => n
  | .dir n _ => n

/-- Result of `entry.path().is_dir()` on the node. -/
def FsTree.isDirNode : FsTree → Bool
  | .file _ => false
  | .dir _ _ => true

/-- The children of a forest as a `List`, for membership statements. -/
def FsForest.toList : FsForest → List FsTree
  | .nil => []
  | .cons c rest => c :: rest.toList

/-- One filesystem object sent on the result channel: its absolute path as a
component list, and its file-vs-directory classification at discovery time. -/
structure Entry where
  path : List String
  isDir : Bool
deriving DecidableEq, Repr

/-- `Path::file_name` modelled on component lists: the last component, if
there is one. -/
def fileName (p : List String) : Option String :=
  p.getLast?

/-- `fn is_match(entry: &Path, pattern: &Option<Regex>) -> bool`
(src/files.rs:173-183).  The result `none` models the panic of
`entry.file_name().unwrap()` when the path has no final component. -/
def is_match (entry : List String) (pat : Option Pat) : Option Bool :=
  match pat with
  | some pa => (fileName entry).map pa
  | none => some false

/-- The ignore test applied to a bare base name (the value
`is_match` computes on any path whose final component is that name). -/
def nameMatches (ig : Option Pat) (s : String) : Bool :=
  match ig with
  | some pa => pa s
  | none => false

mutual

/-- `Cli::files_inner` (src/files.rs:135-170).  `none` on panic; otherwise
the entries sent on the channel during the call together with the
`Result<(), FilesError>` value the call returns. -/
def files_inner (p : List String) (t : FsTree) (ig : Option Pat) (d a : Bool) :
    Option (List Entry × Except Unit Unit) :=
  match is_match p ig with
  | none => none
  | some true => some ([], Except.ok ())
  | some false =>
    match t with
    | .file _ => some ([], Except.error ())
    | .dir _ .fail => some ([], Except.error ())
    | .dir _ (.ok cs) => files_children p cs ig d a

/-- The `for entry in read_dir(..)` loop of `Cli::files_inner`
(src/files.rs:145-167), over the remaining children of the directory at
path `p`: a non-directory child is sent iff directories-only mode is off and
its name does not match; a directory child is sent iff directories-only mode
is on, and is then recursed into — in the same thread with `?`-propagation
of its error (sync), or in a spawned thread whose error is unwrapped there
and so never reaches this loop (async). -/
def files_children (p : List String) (cs : FsForest) (ig : Option Pat) (d a : Bool) :
    Option (List Entry × Except Unit Unit) :=
  match cs with
  | .nil => some ([], Except.ok ())
  | .cons c rest =>
    match c with
    | .file n =>
      if d then
        files_children p rest ig d a
      else
        match is_match (p ++ [n]) ig with
        | none => none
        | some m =>
          (files_children p rest ig d a).map
            (fun r => ((if m then [] else [Entry.mk (p ++ [n]) false]) ++ r.1, r.2))
    | .dir n l =>
      let em := if d then [Entry.mk (p ++ [n]) true] else []
      if a then
        let semits :=
          match files_inner (p ++ [n]) (.dir n l) ig d a with
          | none => []
          | some r => r.1
        (files_children p rest ig d a).map (fun r => (em ++ semits ++ r.1, r.2))
      else
        match files_inner (p ++ [n]) (.dir n l) ig d a with
        | none => none
        | some (es, Except.error e) => some (em ++ es, Except.error e)
        | some (es, Except.ok _) =>
          (files_children p rest ig d a).map (fun r => (em ++ es ++ r.1, r.2))

end

/-- The entries the receiver side of the channel yields (a traversal thread
that panics at its root `is_match` has sent nothing). -/
def entriesOf : Option (List Entry × Except Unit Unit) → List Entry
  | none => []
  | some r => r.1

/-- `Cli::files` (src/files.rs:123-133): spawns the traversal thread and
returns only the receiver; the `Result` value of `files_inner` is discarded
together with the thread's join handle, so the caller observes nothing but
the entry stream. -/
def files (root : List String) (t : FsTree) (ig : Option Pat) (d a : Bool) :
    List Entry :=
  entriesOf (files_inner root t ig d a)

mutual

/-- No `read_dir` call in this subtree can fail. -/
def FsTree.noFail : FsTree → Bool
  | .file _ => true
  | .dir _ l => l.noFailL

/-- `FsTree.noFail` on a listing: it succeeded, and its children are
failure-free. -/
def FsListing.noFailL : FsListing → Bool
  | .fail => false
  | .ok cs => cs.noFailF

/-- `FsTree.noFail` on every tree of a forest. -/
def FsForest.noFailF : FsForest → Bool
  | .nil => true
  | .cons c rest => c.noFail && rest.noFailF

end

/-- The error cases of `enum FilesError` (src/files.rs:21-31). -/
inductive FilesErr where
  | regexErr
  | ioErr
  | stripErr
  | otherErr
deriving DecidableEq, Repr

/-- The predicate of `run`'s result filter (src/files.rs:106):
`!self.matchre.is_some() || is_match(&entry.path(), &self.matchre)`, with
short-circuit evaluation, so `is_match` (and its possible panic) is reached
only when a match pattern is configured. -/
def consumerKeep (matchre : Option Pat) (e : Entry) : Option Bool :=
  match matchre with
  | none => some true
  | some _ => is_match e.path matchre

/-- The consumer loop of `Cli::run` (src/files.rs:104-107): lazily filter
the stream with `consumerKeep` and stop consuming after `maxItems` surviving
entries.  `none` propagates a panic of the filter predicate. -/
def consume (matchre : Option Pat) (maxItems : Nat) : List Entry → Option (List Entry)
  | [] => some []
  | e :: es =>
    if maxItems = 0 then some []
    else
      match consumerKeep matchre e with
      | none => none
      | some true => (consume matchre (maxItems - 1) es).map (fun out => e :: out)
      | some false => consume matchre maxItems es

/-- Render a component path the way `println!` displays it. -/
def joinPath (p : List String) : String :=
  String.intercalate "/" p

/-- The per-entry output step of `Cli::run` (src/files.rs:109-116): print
the absolute path, or strip the root and print `./`-prefixed; a path not
under the root makes `strip_prefix` return an error that `?` propagates to
the caller of `run`. -/
def renderPath (abs : Bool) (root p : List String) : Except FilesErr String :=
  if abs then Except.ok (joinPath p)
  else
    if root.isPrefixOf p then Except.ok ("./" ++ joinPath (List.drop root.length p))
    else Except.error FilesErr.stripErr

/-- `Cli::run` composed with `Cli::files` (src/files.rs:101-120) on a given
tree: the lines printed, or the `FilesError` that `run` returns, or `none`
for a panic of the consumer thread. -/
def runPipeline (t : FsTree) (root : List String) (matchre ig : Option Pat)
    (d abs a : Bool) (maxItems : Nat) : Option (Except FilesErr (List String)) :=
  match consume matchre maxItems (files root t ig d a) with
  | none => none
  | some kept => some (kept.mapM (fun e => renderPath abs root e.path))

/-- The built-in default ignore pattern of `Cli::new` (src/files.rs:80). -/
def DEFAULT_IGNORE : String := "^(\\.git|\\.hg|\\.svn|_darcs|\\.bzr)$"

/-- The ignore-pattern string resolution of `Cli::new` (src/files.rs:77-80):
the explicit `--ignore` argument, else the `FILES_IGNORE_PATTERN`
environment variable, else the built-in default. -/
def resolveIgnoreStr (arg envVar : Option String) : String :=
  match arg with
  | some s => s
  | none =>
    match envVar with
    | some s => s
    | none => DEFAULT_IGNORE

/-- The ignore-pattern compilation of `Cli::new` (src/files.rs:81-85): a
non-empty resolved string is compiled (a compilation failure aborts
configuration), an empty one yields no pattern at all. -/
def resolveIgnore (compile : String → Except FilesErr Pat) (arg envVar : Option String) :
    Except FilesErr (Option Pat) :=
  let s := resolveIgnoreStr arg envVar
  if s ≠ "" then (compile s).map some
  else Except.ok none

/-- `usize::max_value()`. -/
def USIZE_MAX : Nat := 2 ^ 64 - 1

/-- The `max_items` resolution of `Cli::new` (src/files.rs:88-89):
`matches.value_of("max-items").and_then(|s| s.parse().ok()).unwrap_or(usize::max_value())`. -/
def resolveMaxItems (argStr : Option String) (parse : String → Option Nat) : Nat :=
  match argStr.bind parse with
  | some n => n
  | none => USIZE_MAX

/-- The ignore semantics of the built-in default pattern
`^(\.git|\.hg|\.svn|_darcs|\.bzr)$`, as a matching function. -/
def vcsPat : Pat := fun s =>
  s == ".git" || s == ".hg" || s == ".svn" || s == "_darcs" || s == ".bzr"

/-- The children of the spec's §8 scenario root: `a.txt`, `.git/config`,
`sub/b.txt`. -/
def specKids : FsForest :=
  .cons (.file "a.txt")
    (.cons (.dir ".git" (.ok (.cons (.file "config") .nil)))
      (.cons (.dir "sub" (.ok (.cons (.file "b.txt") .nil))) .nil))

/-- The spec's §8 scenario tree: a root containing `a.txt`, `.git/config`
and `sub/b.txt`. -/
def specTree : FsTree :=
  .dir "root" (.ok specKids)

/-- A root whose first child directory fails to list and whose second child
is an ordinary file. -/
def badTree : FsTree :=
  .dir "r" (.ok (.cons (.dir "bad" .fail) (.cons (.file "a") .nil)))

/-- Shape of every entry a traversal rooted at `p` can emit: its path
extends `p` by at least one component, no component below `p` other than the
final one matches the ignore pattern, a non-directory entry is only emitted
with directories-only mode off and a non-matching final component, and a
directory entry only with directories-only mode on. -/
def EntryShape (p : List String) (ig : Option Pat) (d : Bool) (e : Entry) : Prop :=
  ∃ q n, e.path = p ++ q ++ [n] ∧ (∀ x ∈ q, nameMatches ig x = false) ∧
    (e.isDir = false → d = false ∧ nameMatches ig n = false) ∧
    (e.isDir = true → d = true)

theorem files_inner_file_eq (p : List String) (n : String) (ig : Option Pat) (d a : Bool) :
    files_inner p (.file n) ig d a =
      (match is_match p ig with
       | none => none
       | some true => some ([], Except.ok ())
       | some false => some ([], Except.error ())) := rfl

theorem files_inner_dirFail_eq (p : List String) (n : String) (ig : Option Pat) (d a : Bool) :
    files_inner p (.dir n .fail) ig d a =
      (match is_match p ig with
       | none => none
       | some true => some ([], Except.ok ())
       | some false => some ([], Except.error ())) := rfl

theorem files_inner_dirOk_eq (p : List String) (n : String) (cs : FsForest) (ig : Option Pat)
    (d a : Bool) :
    files_inner p (.dir n (.ok cs)) ig d a =
      (match is_match p ig with
       | none => none
       | some true => some ([], Except.ok ())
       | some false => files_children p cs ig d a) := rfl

theorem files_children_nil_eq (p : List String) (ig : Option Pat) (d a : Bool) :
    files_children p .nil ig d a = some ([], Except.ok ()) := rfl

theorem files_children_file_eq (p : List String) (n : String) (rest : FsForest)
    (ig : Option Pat) (d a : Bool) :
    files_children p (.cons (.file n) rest) ig d a =
      (if d then files_children p rest ig d a
       else
        match is_match (p ++ [n]) ig with
        | none => none
        | some m =>
          (files_children p rest ig d a).map
            (fun r => ((if m then [] else [Entry.mk (p ++ [n]) false]) ++ r.1, r.2))) := rfl

theorem files_children_dir_eq (p : List String) (n : String) (l : FsListing) (rest : FsForest)
    (ig : Option Pat) (d a : Bool) :
    files_children p (.cons (.dir n l) rest) ig d a =
      (let em := if d then [Entry.mk (p ++ [n]) true] else []
       if a then
        let semits :=
          match files_inner (p ++ [n]) (.dir n l) ig d a with
          | none => []
          | some r => r.1
        (files_children p rest ig d a).map (fun r => (em ++ semits ++ r.1, r.2))
       else
        match files_inner (p ++ [n]) (.dir n l) ig d a with
        | none => none
        | some (es, Except.error e) => some (em ++ es, Except.error e)
        | some (es, Except.ok _) =>
          (files_children p rest ig d a).map (fun r => (em ++ es ++ r.1, r.2))) := rfl

theorem is_match_concat (p : List String) (n : String) (ig : Option Pat) :
    is_match (p ++ [n]) ig = some (nameMatches ig n) := by
  cases ig with
  | none => rfl
  | some pa => simp [is_match, nameMatches, fileName, List.getLast?_concat]

theorem is_match_of_ne_nil (p : List String) (ig : Option Pat) (hp : p ≠ []) :
    is_match p ig = some (nameMatches ig (p.getLastD "")) := by
  obtain ⟨q, n, rfl⟩ : ∃ q n, p = q ++ [n] :=
    ⟨p.dropLast, p.getLast hp, (List.dropLast_append_getLast hp).symm⟩
  rw [is_match_concat]
  simp

theorem files_inner_pruned (p : List String) (t : FsTree) (ig : Option Pat) (d a : Bool)
    (h : is_match p ig = some true) : files_inner p t ig d a = some ([], Except.ok ()) := by
  cases t with
  | file n => simp [files_inner, h]
  | dir n l => cases l <;> simp [files_inner, h]

mutual

theorem files_inner_ne_none (p : List String) (t : FsTree) (ig : Option Pat) (d a : Bool)
    (hp : p ≠ []) : files_inner p t ig d a ≠ none := by
  have hm := is_match_of_ne_nil p ig hp
  cases t with
  | file n => cases hb : nameMatches ig (p.getLastD "") <;> rw [hb] at hm <;> simp [files_inner, hm]
  | dir n l =>
    cases l with
    | fail =>
      cases hb : nameMatches ig (p.getLastD "") <;> rw [hb] at hm <;> simp [files_inner, hm]
    | ok cs =>
      cases hb : nameMatches ig (p.getLastD "") <;> rw [hb] at hm
      · simp only [files_inner, hm]
        exact files_children_ne_none p cs ig d a
      · simp [files_inner, hm]

theorem files_children_ne_none (p : List String) (cs : FsForest) (ig : Option Pat) (d a : Bool) :
    files_children p cs ig d a ≠ none := by
  cases cs with
  | nil => simp [files_children]
  | cons c rest =>
    have hrest := files_children_ne_none p rest ig d a
    cases c with
    | file n =>
      cases d with
      | true => simpa [files_children] using hrest
      | false =>
        simp [files_children, is_match_concat, Option.map_eq_none]
        exact hrest
    | dir n l =>
      have hsub := files_inner_ne_none (p ++ [n]) (.dir n l) ig d a (by simp)
      cases a with
      | true =>
        simp [files_children, Option.map_eq_none]
        exact hrest
      | false =>
        simp only [files_children, Bool.false_eq_true, if_false]
        cases hs : files_inner (p ++ [n]) (.dir n l) ig d false with
        | none => exact absurd hs hsub
        | some r =>
          obtain ⟨es, r2⟩ := r
          cases r2 with
          | error u => simp
          | ok u =>
            simp [Option.map_eq_none]
            exact hrest

end

theorem files_children_exists (p : List String) (cs : FsForest) (ig : Option Pat) (d a : Bool) :
    ∃ es r, files_children p cs ig d a = some (es, r) := by
  cases h : files_children p cs ig d a with
  | none => exact absurd h (files_children_ne_none p cs ig d a)
  | some v => exact ⟨v.1, v.2, rfl⟩

theorem files_inner_exists (p : List String) (t : FsTree) (ig : Option Pat) (d a : Bool)
    (hp : p ≠ []) : ∃ es r, files_inner p t ig d a = some (es, r) := by
  cases h : files_inner p t ig d a with
  | none => exact absurd h (files_inner_ne_none p t ig d a hp)
  | some v => exact ⟨v.1, v.2, rfl⟩

theorem entryShape_lift (p : List String) (n : String) (ig : Option Pat) (d : Bool) (e : Entry)
    (hnm : nameMatches ig n = false) (h : EntryShape (p ++ [n]) ig d e) :
    EntryShape p ig d e := by
  obtain ⟨q, m, hpath, hq, hf, hd⟩ := h
  refine ⟨n :: q, m, ?_, ?_, hf, hd⟩
  · simpa using hpath
  · intro x hx
    rcases List.mem_cons.mp hx with rfl | hx2
    · exact hnm
    · exact hq x hx2

theorem files_inner_matched_name (p : List String) (n : String) (t : FsTree) (ig : Option Pat)
    (d a : Bool) (hnm : nameMatches ig n = true) :
    files_inner (p ++ [n]) t ig d a = some ([], Except.ok ()) :=
  files_inner_pruned _ t ig d a (by rw [is_match_concat, hnm])

mutual

theorem files_inner_shape (p : List String) (t : FsTree) (ig : Option Pat) (d a : Bool)
    (es : List Entry) (r : Except Unit Unit) (h : files_inner p t ig d a = some (es, r)) :
    ∀ e ∈ es, EntryShape p ig d e := by
  cases t with
  | file n =>
    rw [files_inner_file_eq] at h
    intro e he
    cases hm : is_match p ig with
    | none => rw [hm] at h; simp at h
    | some b => cases b <;> rw [hm] at h <;> simp at h <;> simp [h.1] at he
  | dir n l =>
    cases l with
    | fail =>
      rw [files_inner_dirFail_eq] at h
      intro e he
      cases hm : is_match p ig with
      | none => rw [hm] at h; simp at h
      | some b => cases b <;> rw [hm] at h <;> simp at h <;> simp [h.1] at he
    | ok cs =>
      rw [files_inner_dirOk_eq] at h
      cases hm : is_match p ig with
      | none => rw [hm] at h; simp at h
      | some b =>
        cases b with
        | true =>
          rw [hm] at h
          simp at h
          intro e he
          simp [h.1] at he
        | false =>
          rw [hm] at h
          exact files_children_shape p cs ig d a es r h

theorem files_children_shape (p : List String) (cs : FsForest) (ig : Option Pat) (d a : Bool)
    (es : List Entry) (r : Except Unit Unit) (h : files_children p cs ig d a = some (es, r)) :
    ∀ e ∈ es, EntryShape p ig d e := by
  cases cs with
  | nil =>
    rw [files_children_nil_eq] at h
    simp at h
    intro e he
    simp [h.1] at he
  | cons c rest =>
    cases c with
    | file n =>
      rw [files_children_file_eq] at h
      cases d with
      | true =>
        simp only [if_true] at h
        exact files_children_shape p rest ig true a es r h
      | false =>
        simp only [Bool.false_eq_true, if_false, is_match_concat] at h
        obtain ⟨es2, r2, hrest⟩ := files_children_exists p rest ig false a
        rw [hrest] at h
        simp only [Option.map_some'] at h
        rw [Option.some_inj, Prod.mk.injEq] at h
        obtain ⟨hes, hr⟩ := h
        intro e he
        rw [← hes] at he
        rcases List.mem_append.mp he with hel | her
        · cases hnm : nameMatches ig n with
          | true => rw [hnm] at hel; simp at hel
          | false =>
            rw [hnm] at hel
            simp at hel
            subst hel
            exact ⟨[], n, by simp, by simp, fun _ => ⟨rfl, hnm⟩, by simp⟩
        · exact files_children_shape p rest ig false a es2 r2 hrest e her
    | dir n l =>
      have hsubsh := files_inner_shape (p ++ [n]) (.dir n l) ig d a
      rw [files_children_dir_eq] at h
      simp only [] at h
      obtain ⟨es2, r2, hrest⟩ := files_children_exists p rest ig d a
      have hdirmem : ∀ e ∈ (if d then [Entry.mk (p ++ [n]) true] else []), EntryShape p ig d e := by
        intro e he
        cases d with
        | true =>
          simp at he
          subst he
          exact ⟨[], n, by simp, by simp, by simp, fun _ => rfl⟩
        | false => simp at he
      have hsubmem : ∀ es3 r3, files_inner (p ++ [n]) (.dir n l) ig d a = some (es3, r3) →
          ∀ e ∈ es3, EntryShape p ig d e := by
        intro es3 r3 hsub e he
        cases hnm : nameMatches ig n with
        | true =>
          rw [files_inner_matched_name p n _ ig d a hnm] at hsub
          rw [Option.some_inj, Prod.mk.injEq] at hsub
          rw [← hsub.1] at he
          simp at he
        | false =>
          exact entryShape_lift p n ig d e hnm (hsubsh es3 r3 hsub e he)
      cases a with
      | true =>
        simp only [if_true] at h
        rw [hrest] at h
        obtain ⟨es3, r3, hsub⟩ := files_inner_exists (p ++ [n]) (.dir n l) ig d true (by simp)
        rw [hsub] at h
        simp only [Option.map_some'] at h
        rw [Option.some_inj, Prod.mk.injEq] at h
        intro e he
        rw [← h.1] at he
        rcases List.mem_append.mp he with hel | her
        · rcases List.mem_append.mp hel with hell | helr
          · exact hdirmem e hell
          · exact hsubmem es3 r3 hsub e helr
        · exact files_children_shape p rest ig d true es2 r2 hrest e her
      | false =>
        simp only [Bool.false_eq_true, if_false] at h
        obtain ⟨es3, r3, hsub⟩ := files_inner_exists (p ++ [n]) (.dir n l) ig d false (by simp)
        rw [hsub] at h
        cases r3 with
        | error u =>
          rw [Option.some_inj, Prod.mk.injEq] at h
          intro e he
          rw [← h.1] at he
          rcases List.mem_append.mp he with hel | her
          · exact hdirmem e hel
          · exact hsubmem es3 (Except.error u) hsub e her
        | ok u =>
          rw [hrest] at h
          simp only [Option.map_some'] at h
          rw [Option.some_inj, Prod.mk.injEq] at h
          intro e he
          rw [← h.1] at he
          rcases List.mem_append.mp he with hel | her
          · rcases List.mem_append.mp hel with hell | helr
            · exact hdirmem e hell
            · exact hsubmem es3 (Except.ok u) hsub e helr
          · exact files_children_shape p rest ig d false es2 r2 hrest e her

end

mutual

theorem files_inner_noFail_ok (p : List String) (n : String) (l : FsListing) (ig : Option Pat)
    (d a : Bool) (hnf : (FsTree.dir n l).noFail = true) (hp : p ≠ []) :
    ∃ es, files_inner p (.dir n l) ig d a = some (es, Except.ok ()) := by
  cases l with
  | fail => simp [FsTree.noFail, FsListing.noFailL] at hnf
  | ok cs =>
    have hcs : cs.noFailF = true := by
      simpa [FsTree.noFail, FsListing.noFailL] using hnf
    rw [files_inner_dirOk_eq, is_match_of_ne_nil p ig hp]
    cases hb : nameMatches ig (p.getLastD "") with
    | true => exact ⟨[], rfl⟩
    | false => exact files_children_noFail_ok p cs ig d a hcs

theorem files_children_noFail_ok (p : List String) (cs : FsForest) (ig : Option Pat)
    (d a : Bool) (hnf : cs.noFailF = true) :
    ∃ es, files_children p cs ig d a = some (es, Except.ok ()) := by
  cases cs with
  | nil => exact ⟨[], rfl⟩
  | cons c rest =>
    have hc : c.noFail = true ∧ rest.noFailF = true := by
      simpa [FsForest.noFailF, Bool.and_eq_true] using hnf
    obtain ⟨es2, hrest⟩ := files_children_noFail_ok p rest ig d a hc.2
    cases c with
    | file n =>
      rw [files_children_file_eq]
      cases d with
      | true => exact ⟨es2, by simpa using hrest⟩
      | false =>
        rw [is_match_concat]
        exact ⟨(if nameMatches ig n then [] else [Entry.mk (p ++ [n]) false]) ++ es2,
          by simp only [Bool.false_eq_true, if_false]; rw [hrest]; rfl⟩
    | dir n l =>
      obtain ⟨es3, hsub⟩ := files_inner_noFail_ok (p ++ [n]) n l ig d a hc.1 (by simp)
      rw [files_children_dir_eq]
      cases a with
      | true =>
        refine ⟨(if d then [Entry.mk (p ++ [n]) true] else []) ++ es3 ++ es2, ?_⟩
        simp only [if_true]
        rw [hsub, hrest]
        rfl
      | false =>
        refine ⟨(if d then [Entry.mk (p ++ [n]) true] else []) ++ es3 ++ es2, ?_⟩
        simp only [Bool.false_eq_true, if_false]
        rw [hsub, hrest]
        rfl

end

theorem files_children_reach_file (p : List String) (cs : FsForest) (ig : Option Pat)
    (a : Bool) (n : String) (hm : (FsTree.file n) ∈ cs.toList)
    (hra : a = true ∨ cs.noFailF = true) (hnm : nameMatches ig n = false) :
    Entry.mk (p ++ [n]) false ∈ entriesOf (files_children p cs ig false a) := by
  cases cs with
  | nil => simp [FsForest.toList] at hm
  | cons c rest =>
    have hsplit : c.noFail = true ∧ rest.noFailF = true ∨ a = true := by
      rcases hra with h1 | h2
      · exact Or.inr h1
      · exact Or.inl (by simpa [FsForest.noFailF, Bool.and_eq_true] using h2)
    have hra2 : a = true ∨ rest.noFailF = true := by
      rcases hsplit with h1 | h2
      · exact Or.inr h1.2
      · exact Or.inl h2
    rcases List.mem_cons.mp (by simpa [FsForest.toList] using hm) with hhead | htail
    · subst hhead
      rw [files_children_file_eq]
      simp only [Bool.false_eq_true, if_false, is_match_concat, hnm]
      obtain ⟨es2, r2, hrest⟩ := files_children_exists p rest ig false a
      rw [hrest]
      simp [entriesOf]
    · cases c with
      | file m =>
        have ih := files_children_reach_file p rest ig a n (by simpa [FsForest.toList] using htail)
          hra2 hnm
        rw [files_children_file_eq]
        simp only [Bool.false_eq_true, if_false, is_match_concat]
        obtain ⟨es2, r2, hrest⟩ := files_children_exists p rest ig false a
        rw [hrest] at ih ⊢
        simp [entriesOf] at ih ⊢
        tauto
      | dir m l =>
        have ih := files_children_reach_file p rest ig a n (by simpa [FsForest.toList] using htail)
          hra2 hnm
        rw [files_children_dir_eq]
        obtain ⟨es2, r2, hrest⟩ := files_children_exists p rest ig false a
        rw [hrest] at ih
        simp [entriesOf] at ih
        cases a with
        | true =>
          simp only [if_true]
          obtain ⟨es3, r3, hsub⟩ := files_inner_exists (p ++ [m]) (.dir m l) ig false true
            (by simp)
          rw [hsub, hrest]
          simp [entriesOf]
          tauto
        | false =>
          have hnofail : (FsTree.dir m l).noFail = true ∧ rest.noFailF = true := by
            rcases hsplit with h1 | h2
            · exact h1
            · exact absurd h2 (by simp)
          obtain ⟨es3, hsub⟩ := files_inner_noFail_ok (p ++ [m]) m l ig false false
            hnofail.1 (by simp)
          simp only [Bool.false_eq_true, if_false]
          rw [hsub, hrest]
          simp [entriesOf]
          tauto

theorem files_children_reach_dir (p : List String) (cs : FsForest) (ig : Option Pat)
    (a : Bool) (n : String) (l : FsListing) (hm : (FsTree.dir n l) ∈ cs.toList)
    (hra : a = true ∨ cs.noFailF = true) :
    Entry.mk (p ++ [n]) true ∈ entriesOf (files_children p cs ig true a) := by
  cases cs with
  | nil => simp [FsForest.toList] at hm
  | cons c rest =>
    have hsplit : c.noFail = true ∧ rest.noFailF = true ∨ a = true := by
      rcases hra with h1 | h2
      · exact Or.inr h1
      · exact Or.inl (by simpa [FsForest.noFailF, Bool.and_eq_true] using h2)
    have hra2 : a = true ∨ rest.noFailF = true := by
      rcases hsplit with h1 | h2
      · exact Or.inr h1.2
      · exact Or.inl h2
    rcases List.mem_cons.mp (by simpa [FsForest.toList] using hm) with hhead | htail
    · subst hhead
      rw [files_children_dir_eq]
      cases a with
      | true =>
        simp only [if_true]
        obtain ⟨es3, r3, hsub⟩ := files_inner_exists (p ++ [n]) (.dir n l) ig true true
          (by simp)
        obtain ⟨es2, r2, hrest⟩ := files_children_exists p rest ig true true
        rw [hsub, hrest]
        simp [entriesOf]
      | false =>
        simp only [Bool.false_eq_true, if_false]
        obtain ⟨es3, r3, hsub⟩ := files_inner_exists (p ++ [n]) (.dir n l) ig true false
          (by simp)
        rw [hsub]
        cases r3 with
        | error u => simp [entriesOf]
        | ok u =>
          obtain ⟨es2, r2, hrest⟩ := files_children_exists p rest ig true false
          rw [hrest]
          simp [entriesOf]
    · cases c with
      | file m =>
        have ih := files_children_reach_dir p rest ig a n l
          (by simpa [FsForest.toList] using htail) hra2
        rw [files_children_file_eq]
        simp only [if_true]
        exact ih
      | dir m l2 =>
        have ih := files_children_reach_dir p rest ig a n l
          (by simpa [FsForest.toList] using htail) hra2
        rw [files_children_dir_eq]
        obtain ⟨es2, r2, hrest⟩ := files_children_exists p rest ig true a
        rw [hrest] at ih
        simp [entriesOf] at ih
        cases a with
        | true =>
          simp only [if_true]
          obtain ⟨es3, r3, hsub⟩ := files_inner_exists (p ++ [m]) (.dir m l2) ig true true
            (by simp)
          rw [hsub, hrest]
          simp [entriesOf]
          tauto
        | false =>
          have hnofail : (FsTree.dir m l2).noFail = true ∧ rest.noFailF = true := by
            rcases hsplit with h1 | h2
            · exact h1
            · exact absurd h2 (by simp)
          obtain ⟨es3, hsub⟩ := files_inner_noFail_ok (p ++ [m]) m l2 ig true false
            hnofail.1 (by simp)
          simp only [Bool.false_eq_true, if_false]
          rw [hsub, hrest]
          simp [entriesOf]
          tauto

mutual

theorem files_inner_mode_eq (p : List String) (t : FsTree) (ig : Option Pat) (d : Bool)
    (hnf : t.noFail = true) :
    files_inner p t ig d false = files_inner p t ig d true := by
  cases t with
  | file n => rfl
  | dir n l =>
    cases l with
    | fail => rfl
    | ok cs =>
      have hcs : cs.noFailF = true := by
        simpa [FsTree.noFail, FsListing.noFailL] using hnf
      rw [files_inner_dirOk_eq, files_inner_dirOk_eq]
      cases hm : is_match p ig with
      | none => rfl
      | some b =>
        cases b with
        | true => rfl
        | false => exact files_children_mode_eq p cs ig d hcs

theorem files_children_mode_eq (p : List String) (cs : FsForest) (ig : Option Pat) (d : Bool)
    (hnf : cs.noFailF = true) :
    files_children p cs ig d false = files_children p cs ig d true := by
  cases cs with
  | nil => rfl
  | cons c rest =>
    have hc : c.noFail = true ∧ rest.noFailF = true := by
      simpa [FsForest.noFailF, Bool.and_eq_true] using hnf
    have hrestEq := files_children_mode_eq p rest ig d hc.2
    cases c with
    | file n =>
      rw [files_children_file_eq, files_children_file_eq, hrestEq]
    | dir n l =>
      have hsubEq := files_inner_mode_eq (p ++ [n]) (.dir n l) ig d hc.1
      obtain ⟨es3, hsub⟩ := files_inner_noFail_ok (p ++ [n]) n l ig d false hc.1 (by simp)
      rw [files_children_dir_eq, files_children_dir_eq]
      simp only [if_true, Bool.false_eq_true, if_false]
      rw [← hsubEq, hsub, hrestEq]

end

theorem consume_nil_eq (m : Option Pat) (k : Nat) : consume m k [] = some [] := rfl

theorem consume_cons_eq (m : Option Pat) (k : Nat) (e : Entry) (es : List Entry) :
    consume m k (e :: es) =
      (if k = 0 then some []
       else
        match consumerKeep m e with
        | none => none
        | some true => (consume m (k - 1) es).map (fun out => e :: out)
        | some false => consume m k es) := rfl

theorem consume_length_le (s : List Entry) : ∀ (m : Option Pat) (k : Nat) (out : List Entry),
    consume m k s = some out → out.length ≤ k := by
  induction s with
  | nil =>
    intro m k out h
    rw [consume_nil_eq, Option.some_inj] at h
    simp [← h]
  | cons e es ih =>
    intro m k out h
    rw [consume_cons_eq] at h
    by_cases hk : k = 0
    · rw [if_pos hk, Option.some_inj] at h
      simp [← h]
    · rw [if_neg hk] at h
      cases hkeep : consumerKeep m e with
      | none => rw [hkeep] at h; simp at h
      | some b =>
        rw [hkeep] at h
        cases b with
        | true =>
          simp only [] at h
          cases hrec : consume m (k - 1) es with
          | none => rw [hrec] at h; simp at h
          | some out2 =>
            rw [hrec] at h
            simp only [Option.map_some', Option.some_inj] at h
            rw [← h]
            have := ih m (k - 1) out2 hrec
            simp
            omega
        | false => exact ih m k out h

theorem consume_no_pattern (s : List Entry) : ∀ (k : Nat) (out : List Entry),
    consume none k s = some out → out = s.take k := by
  induction s with
  | nil =>
    intro k out h
    rw [consume_nil_eq, Option.some_inj] at h
    simp [← h]
  | cons e es ih =>
    intro k out h
    rw [consume_cons_eq] at h
    by_cases hk : k = 0
    · rw [if_pos hk, Option.some_inj] at h
      simp [← h, hk]
    · rw [if_neg hk] at h
      have hkeep : consumerKeep none e = some true := rfl
      rw [hkeep] at h
      simp only [] at h
      cases hrec : consume none (k - 1) es with
      | none => rw [hrec] at h; simp at h
      | some out2 =>
        rw [hrec] at h
        simp only [Option.map_some', Option.some_inj] at h
        obtain ⟨k2, rfl⟩ : ∃ k2, k = k2 + 1 := ⟨k - 1, by omega⟩
        rw [← h, List.take_succ_cons]
        simp only [Nat.add_sub_cancel] at hrec
        rw [ih k2 out2 hrec]

theorem consume_with_pattern (pa : Pat) (s : List Entry) : ∀ (k : Nat) (out : List Entry),
    (∀ e ∈ s, e.path ≠ []) → consume (some pa) k s = some out →
    out = (s.filter (fun e => pa (e.path.getLastD ""))).take k := by
  induction s with
  | nil =>
    intro k out _ h
    rw [consume_nil_eq, Option.some_inj] at h
    simp [← h]
  | cons e es ih =>
    intro k out hne h
    have hpath : e.path ≠ [] := hne e (List.mem_cons_self e es)
    have hkeep : consumerKeep (some pa) e = some (pa (e.path.getLastD "")) := by
      show is_match e.path (some pa) = _
      rw [is_match_of_ne_nil e.path (some pa) hpath]
      rfl
    have hne2 : ∀ e2 ∈ es, e2.path ≠ [] := fun e2 he2 => hne e2 (List.mem_cons_of_mem e he2)
    rw [consume_cons_eq] at h
    by_cases hk : k = 0
    · rw [if_pos hk, Option.some_inj] at h
      simp [← h, hk]
    · rw [if_neg hk, hkeep] at h
      cases hpa : pa (e.path.getLastD "") with
      | true =>
        rw [hpa] at h
        simp only [] at h
        cases hrec : consume (some pa) (k - 1) es with
        | none => rw [hrec] at h; simp at h
        | some out2 =>
          rw [hrec] at h
          simp only [Option.map_some', Option.some_inj] at h
          obtain ⟨k2, rfl⟩ : ∃ k2, k = k2 + 1 := ⟨k - 1, by omega⟩
          simp only [Nat.add_sub_cancel] at hrec
          rw [← h, List.filter_cons_of_pos (by simpa using hpa), List.take_succ_cons,
            ih k2 out2 hne2 hrec]
      | false =>
        rw [hpa] at h
        rw [List.filter_cons_of_neg (by simpa using hpa)]
        exact ih k out hne2 h

/-- C7: the ignore matcher tests only the final path component (base name)
of an entry against its single compiled pattern, never the full path, and
for every input it returns `false` when no pattern is configured. -/
theorem c7_matcher_basename :
    (∀ p, is_match p none = some false) ∧
    (∀ p q pa, fileName p = fileName q → is_match p (some pa) = is_match q (some pa)) := by
  constructor
  · intro p
    rfl
  · intro p q pa h
    simp [is_match, h]

/-- Witness for C7 at concrete inputs: the empty configuration ignores
nothing, and two distinct paths with the same base name get the same
verdict. -/
theorem c7_matcher_basename_w :
    is_match ["x"] none = some false ∧
      is_match ["a", "n"] (some vcsPat) = is_match ["b", "n"] (some vcsPat) :=
  ⟨c7_matcher_basename.1 ["x"], c7_matcher_basename.2 ["a", "n"] ["b", "n"] vcsPat rfl⟩

/-- C8: the ignore pattern is resolved once at startup as explicit argument,
then environment variable, then built-in default, and an empty resolved
string disables ignoring entirely — no pattern is compiled, whatever the
compiler would do. -/
theorem c8_ignore_resolution :
    (∀ s envVar, resolveIgnoreStr (some s) envVar = s) ∧
    (∀ v, resolveIgnoreStr none (some v) = v) ∧
    (resolveIgnoreStr none none = DEFAULT_IGNORE) ∧
    (∀ compile arg envVar, resolveIgnoreStr arg envVar = "" →
      resolveIgnore compile arg envVar = Except.ok none) := by
  refine ⟨fun s envVar => rfl, fun v => rfl, rfl, ?_⟩
  intro compile arg envVar h
  simp [resolveIgnore, h]

/-- Witness for C8: an explicit empty argument resolves to the empty string
and yields no compiled pattern even under an always-failing compiler. -/
theorem c8_ignore_resolution_w :
    resolveIgnoreStr (some "") none = "" ∧
      resolveIgnore (fun _ => Except.error FilesErr.regexErr) (some "") none = Except.ok none :=
  ⟨rfl, c8_ignore_resolution.2.2.2 (fun _ => Except.error FilesErr.regexErr) (some "") none rfl⟩

/-- C9: relative rendering of a path that does not lie under the traversal
root fails with the strip-prefix error value returned to the caller, and
absolute rendering never performs the prefix check. -/
theorem c9_render :
    (∀ root p, renderPath true root p = Except.ok (joinPath p)) ∧
    (∀ root p, root.isPrefixOf p = false →
      renderPath false root p = Except.error FilesErr.stripErr) := by
  constructor
  · intro root p
    rfl
  · intro root p h
    simp [renderPath, h]

/-- Witness for C9: an entry outside the root renders relatively to the
strip-prefix error, and absolutely to its own path. -/
theorem c9_render_w :
    renderPath true ["q"] ["r", "x"] = Except.ok (joinPath ["r", "x"]) ∧
      List.isPrefixOf ["q"] ["r", "x"] = false ∧
      renderPath false ["q"] ["r", "x"] = Except.error FilesErr.stripErr :=
  ⟨c9_render.1 ["q"] ["r", "x"], by decide, c9_render.2 ["q"] ["r", "x"] (by decide)⟩

/-- C10: with a pattern configured, the matcher applied to a path without a
final component panics (modelled as `none`) instead of returning a boolean;
on a path with a base name it totally computes the pattern on that name; and
a traversal rooted at such a path panics at its very first ignore check. -/
theorem c10_rootless_matcher :
    (∀ pa, is_match [] (some pa) = none) ∧
    (∀ p pa n, fileName p = some n → is_match p (some pa) = some (pa n)) ∧
    (∀ pa t d a, files_inner [] t (some pa) d a = none) := by
  refine ⟨fun pa => rfl, ?_, ?_⟩
  · intro p pa n h
    simp [is_match, h]
  · intro pa t d a
    cases t with
    | file n =>
      rw [files_inner_file_eq]
      rfl
    | dir n l =>
      cases l with
      | fail =>
        rw [files_inner_dirFail_eq]
        rfl
      | ok cs =>
        rw [files_inner_dirOk_eq]
        rfl

/-- Witness for C10: at the filesystem root (the empty component list) the
configured matcher and the whole traversal panic; on `["a"]` the matcher
computes the pattern on `"a"`. -/
theorem c10_rootless_matcher_w :
    is_match [] (some vcsPat) = none ∧
      is_match ["a"] (some vcsPat) = some (vcsPat "a") ∧
      files_inner [] specTree (some vcsPat) false false = none :=
  ⟨c10_rootless_matcher.1 vcsPat, c10_rootless_matcher.2.1 ["a"] vcsPat "a" rfl,
    c10_rootless_matcher.2.2 vcsPat specTree false false⟩

/-- Counterexample to C1 as stated: on the spec's own scenario tree, with
the default ignore pattern and directories-only mode on, the ignored
directory `.git` itself IS in the result stream (`files_inner` emits a
directory child before the ignore check prunes it one level down), so the
output set is not `{./sub}` but `{./.git, ./sub}`. -/
theorem c1_ignored_dir_emitted_cex :
    nameMatches (some vcsPat) ".git" = true ∧
      entriesOf (files_inner ["root"] specTree (some vcsPat) true false) =
        [Entry.mk ["root", ".git"] true, Entry.mk ["root", "sub"] true] ∧
      Entry.mk ["root", ".git"] true ∈
        entriesOf (files_inner ["root"] specTree (some vcsPat) true false) :=
  ⟨rfl, rfl, by decide⟩

/-- C1 amended: a name matching the ignore pattern can occur in an emitted
entry's path only as its final component, and then only as a directory
entry emitted in directories-only mode.  Hence nothing from within an
ignored directory is ever emitted, in any mode, and the ignored directory
itself is absent whenever directories-only mode is off — but in
directories-only mode it is emitted by its parent before being pruned. -/
theorem c1_pruning_amended (p : List String) (t : FsTree) (ig : Option Pat) (d a : Bool)
    (e : Entry) (q1 : List String) (n : String) (q2 : List String)
    (he : e ∈ entriesOf (files_inner p t ig d a))
    (hpath : e.path = p ++ q1 ++ n :: q2) (hnm : nameMatches ig n = true) :
    q2 = [] ∧ e.isDir = true ∧ d = true := by
  cases hr : files_inner p t ig d a with
  | none => rw [hr] at he; simp [entriesOf] at he
  | some v =>
    obtain ⟨es, r⟩ := v
    rw [hr] at he
    obtain ⟨q, m, hq, hunm, hf, hd⟩ := files_inner_shape p t ig d a es r hr e he
    rw [hq] at hpath
    rw [List.append_assoc, List.append_assoc] at hpath
    have heq : q ++ [m] = q1 ++ n :: q2 := List.append_cancel_left hpath
    cases q2 with
    | cons x xs =>
      exfalso
      have hdrop := congrArg List.dropLast heq
      rw [List.dropLast_concat, List.dropLast_append_of_ne_nil q1 (by simp)] at hdrop
      have hmem : n ∈ q := by
        rw [hdrop]
        simp
      exact absurd (hunm n hmem) (by simp [hnm])
    | nil =>
      have hm : m = n := by
        have := congrArg List.getLast? heq
        rw [List.getLast?_concat, List.getLast?_concat] at this
        exact Option.some_inj.mp this
      subst hm
      refine ⟨rfl, ?_, ?_⟩
      · cases hdir : e.isDir with
        | true => rfl
        | false => exact absurd (hf hdir).2 (by simp [hnm])
      · cases hdir : e.isDir with
        | true => exact hd hdir
        | false => exact absurd (hf hdir).2 (by simp [hnm])

/-- Witness for the amended C1 at the scenario tree: the emitted `.git`
entry carries the ignored name as final component, is a directory entry,
and directories-only mode is on. -/
theorem c1_pruning_amended_w :
    Entry.mk ["root", ".git"] true ∈
        entriesOf (files_inner ["root"] specTree (some vcsPat) true false) ∧
      (([] : List String) = [] ∧ (Entry.mk ["root", ".git"] true).isDir = true ∧ true = true) :=
  ⟨by decide,
    c1_pruning_amended ["root"] specTree (some vcsPat) true false
      (Entry.mk ["root", ".git"] true) [] ".git" [] (by decide) rfl rfl⟩

/-- Counterexample to C2 as stated: on a tree whose first child directory
fails to list, the synchronous traversal's error result exists internally,
but the caller-visible outcome of the whole run is a successful, empty
output — no failure status, no diagnostic — because `Cli::files` discards
the `Result` of the traversal thread with its join handle. -/
theorem c2_sync_error_swallowed_cex :
    files_inner ["r"] badTree none false false = some ([], Except.error ()) ∧
      runPipeline badTree ["r"] none none false false false 10 = some (Except.ok []) :=
  ⟨rfl, rfl⟩

/-- C2 amended: in synchronous mode a failed directory listing does halt
traversal of the remaining siblings of every ancestor directory (the `?`
propagation aborts each ancestor's loop), but the error is then discarded
at the traversal-thread boundary: the caller of `files` observes only the
entry stream, which simply ends. -/
theorem c2_sync_error_amended :
    (∀ p n l rest ig d es,
      files_inner (p ++ [n]) (.dir n l) ig d false = some (es, Except.error ()) →
      files_children p (.cons (.dir n l) rest) ig d false =
        some ((if d then [Entry.mk (p ++ [n]) true] else []) ++ es, Except.error ())) ∧
    (∀ root t ig d a es r, files_inner root t ig d a = some (es, r) →
      files root t ig d a = es) := by
  constructor
  · intro p n l rest ig d es h
    rw [files_children_dir_eq]
    simp only [Bool.false_eq_true, if_false]
    rw [h]
  · intro root t ig d a es r h
    simp [files, entriesOf, h]

/-- Witness for the amended C2: on `badTree` the failing first child halts
the loop before the sibling file `a`, and the caller-visible stream is
empty although the traversal's own result is an error. -/
theorem c2_sync_error_amended_w :
    files_inner (["r"] ++ ["bad"]) (.dir "bad" .fail) none false false =
        some ([], Except.error ()) ∧
      files_children ["r"] (.cons (.dir "bad" .fail) (.cons (.file "a") .nil)) none false false =
        some ((if false then [Entry.mk (["r"] ++ ["bad"]) true] else []) ++ [],
          Except.error ()) ∧
      files ["r"] badTree none false false = [] :=
  ⟨rfl,
    c2_sync_error_amended.1 ["r"] "bad" .fail (.cons (.file "a") .nil) none false [] rfl,
    c2_sync_error_amended.2 ["r"] badTree none false false [] (Except.error ()) rfl⟩

/-- C3: with directories-only mode on, every directory child of a visited
(non-pruned, listable) directory is emitted unconditionally — the
hypotheses place no constraint whatever on the ignore verdict of the
child's own name — and the ignore check on that child fires only when it is
itself visited as a traversal root, where a match yields an immediate
return with no emission and no recursion. -/
theorem c3_dir_child_unconditional (p : List String) (nm : String) (cs : FsForest)
    (n : String) (l : FsListing) (ig : Option Pat) (a : Bool)
    (hc : (FsTree.dir n l) ∈ cs.toList)
    (hroot : is_match p ig = some false)
    (hreach : a = true ∨ cs.noFailF = true) :
    Entry.mk (p ++ [n]) true ∈ entriesOf (files_inner p (.dir nm (.ok cs)) ig true a) ∧
      (∀ p2 t2 ig2 d2 a2, is_match p2 ig2 = some true →
        files_inner p2 t2 ig2 d2 a2 = some ([], Except.ok ())) := by
  constructor
  · rw [files_inner_dirOk_eq, hroot]
    exact files_children_reach_dir p cs ig a n l hc hreach
  · intro p2 t2 ig2 d2 a2 h
    exact files_inner_pruned p2 t2 ig2 d2 a2 h

/-- Witness for C3 on the scenario tree: the child `.git` — whose name DOES
match the active ignore pattern — is emitted in directories-only mode, and
visiting it as a root is a no-op. -/
theorem c3_dir_child_unconditional_w :
    vcsPat ".git" = true ∧
      Entry.mk (["root"] ++ [".git"]) true ∈
        entriesOf (files_inner ["root"] (.dir "root" (.ok specKids)) (some vcsPat) true false) ∧
      files_inner ["root", ".git"] (.dir ".git" (.ok (.cons (.file "config") .nil)))
          (some vcsPat) true false = some ([], Except.ok ()) :=
  ⟨rfl,
    (c3_dir_child_unconditional ["root"] "root" specKids ".git"
      (.ok (.cons (.file "config") .nil)) (some vcsPat) false
      (List.Mem.tail _ (List.Mem.head _)) rfl (Or.inr rfl)).1,
    (c3_dir_child_unconditional ["root"] "root" specKids ".git"
      (.ok (.cons (.file "config") .nil)) (some vcsPat) false
      (List.Mem.tail _ (List.Mem.head _)) rfl (Or.inr rfl)).2
      ["root", ".git"] (.dir ".git" (.ok (.cons (.file "config") .nil)))
      (some vcsPat) true false rfl⟩

/-- C4: over a tree in which no directory listing fails, synchronous and
asynchronous traversal with the same configuration produce the same set of
entries. -/
theorem c4_modes_same_entries (p : List String) (t : FsTree) (ig : Option Pat) (d : Bool)
    (hnf : t.noFail = true) (e : Entry) :
    e ∈ entriesOf (files_inner p t ig d false) ↔
      e ∈ entriesOf (files_inner p t ig d true) := by
  rw [files_inner_mode_eq p t ig d hnf]

/-- Witness for C4 on the scenario tree (which has no failing listing). -/
theorem c4_modes_same_entries_w :
    specTree.noFail = true ∧
      (Entry.mk ["root", "a.txt"] false ∈
          entriesOf (files_inner ["root"] specTree (some vcsPat) false false) ↔
        Entry.mk ["root", "a.txt"] false ∈
          entriesOf (files_inner ["root"] specTree (some vcsPat) false true)) :=
  ⟨rfl,
    c4_modes_same_entries ["root"] specTree (some vcsPat) false rfl
      (Entry.mk ["root", "a.txt"] false)⟩

/-- C5: a non-directory child of a visited (non-pruned, listable) directory
is emitted if and only if directories-only mode is off and its base name
does not match the ignore pattern. -/
theorem c5_file_emission_iff (p : List String) (nm : String) (cs : FsForest) (n : String)
    (ig : Option Pat) (d a : Bool) (hc : (FsTree.file n) ∈ cs.toList)
    (hroot : is_match p ig = some false) (hreach : a = true ∨ cs.noFailF = true) :
    Entry.mk (p ++ [n]) false ∈ entriesOf (files_inner p (.dir nm (.ok cs)) ig d a) ↔
      (d = false ∧ nameMatches ig n = false) := by
  constructor
  · intro he
    cases hr : files_inner p (.dir nm (.ok cs)) ig d a with
    | none => rw [hr] at he; simp [entriesOf] at he
    | some v =>
      obtain ⟨es, r⟩ := v
      rw [hr] at he
      obtain ⟨q, m, hq, hunm, hf, hd⟩ := files_inner_shape p _ ig d a es r hr _ he
      have hq2 : p ++ [n] = p ++ (q ++ [m]) := by
        rw [← List.append_assoc]
        exact hq
      have heq : [n] = q ++ [m] := List.append_cancel_left hq2
      cases q with
      | cons x xs =>
        exfalso
        have hlen := congrArg List.length heq
        simp at hlen
      | nil =>
        have hm : m = n := by
          simp at heq
          exact heq.symm
        subst hm
        exact hf rfl
  · rintro ⟨rfl, hnm⟩
    rw [files_inner_dirOk_eq, hroot]
    exact files_children_reach_file p cs ig a n hc hreach hnm

/-- Witness for C5 on the scenario tree: `a.txt` is in the stream exactly
because directories-only mode is off and its name does not match. -/
theorem c5_file_emission_iff_w :
    (Entry.mk (["root"] ++ ["a.txt"]) false ∈
        entriesOf (files_inner ["root"] (.dir "root" (.ok specKids)) (some vcsPat) false false) ↔
      (false = false ∧ nameMatches (some vcsPat) "a.txt" = false)) :=
  c5_file_emission_iff ["root"] "root" specKids "a.txt" (some vcsPat) false false
    (List.Mem.head _) rfl (Or.inr rfl)

/-- C6: the consumer applies the optional match pattern to each entry's
base name (passing everything through when none is given), stops after
`max_items` surviving entries — so the number of results never exceeds
`max_items` — and `max_items` defaults to `usize::max_value()` when the
flag is absent or unparsable. -/
theorem c6_limiter :
    (∀ m k s out, consume m k s = some out →
      out.length ≤ k ∧
      (m = none → out = s.take k) ∧
      (∀ pa, m = some pa → (∀ e ∈ s, e.path ≠ []) →
        out = (s.filter (fun e => pa (e.path.getLastD ""))).take k)) ∧
    (∀ parse, resolveMaxItems none parse = USIZE_MAX) := by
  constructor
  · intro m k s out h
    refine ⟨consume_length_le s m k out h, ?_, ?_⟩
    · rintro rfl
      exact consume_no_pattern s k out h
    · rintro pa rfl hne
      exact consume_with_pattern pa s k out hne h
  · intro parse
    rfl

/-- Witness for C6: a two-entry stream with `max_items = 1` yields exactly
one result, and an absent flag resolves to `usize::max_value()`. -/
theorem c6_limiter_w :
    consume none 1 [Entry.mk ["r", "a"] false, Entry.mk ["r", "b"] false] =
        some [Entry.mk ["r", "a"] false] ∧
      [Entry.mk ["r", "a"] false].length ≤ 1 ∧
      resolveMaxItems none (fun _ => none) = USIZE_MAX :=
  ⟨rfl,
    (c6_limiter.1 none 1 [Entry.mk ["r", "a"] false, Entry.mk ["r", "b"] false]
      [Entry.mk ["r", "a"] false] rfl).1,
    c6_limiter.2 (fun _ => none)⟩
